import Mathlib

/-!
Verification of the email-flagger classification pipeline
(`src/email_flagger/classifier.py`) against its natural-language
specification.  The Python source is shallowly embedded below: pure
functions become Lean functions over `ℚ` (the scores the source ever
produces are exact two-decimal values, so `ℚ` models its floats exactly),
Python dicts become association lists in insertion order, and the
effectful orchestrator becomes a function over an explicit `World` record
with exceptions as `Except`.  Functions the source bounds by a counter
(`deep_merge_config`) or by input length (regex scans) are written with a
structural fuel argument equal to the source's bound, so every definition
evaluates by `rfl`/`decide`.

Layout: all definitions first, then the theorems with their helper lemmas.
-/

namespace EmailFlagger

/-! ## Configuration and classification (classifier.py lines 133-147) -/

/-- The scoring/extraction configuration values used by
`get_classification_for_score` and `extract_snippet`, after the source's
`config.get("scoring", {})` / `.get("red_min", 80)` / `.get("blue_min", 60)`
/ `.get("max_bytes", 2048)` lookups have been resolved (the Python defaults
are the field defaults). -/
structure Config where
  red_min : ℚ := 80
  blue_min : ℚ := 60
  max_bytes : ℕ := 2048
deriving DecidableEq, Repr

/-- Embedding of `get_classification_for_score` (classifier.py lines
133-147): `score < 0` is the sentinel path, then the two inclusive
threshold tests in order. -/
def get_classification_for_score (score : ℚ) (config : Config) : String :=
  if score < 0 then "none"
  else if config.red_min ≤ score then "red"
  else if config.blue_min ≤ score then "blue"
  else "none"

/-! ## Config deep merge on values (classifier.py lines 24-42) -/

/-- A Python JSON-like value as `json.load` produces it: dicts are
association lists in insertion order. -/
inductive PyVal where
  | vdict : List (String × PyVal) → PyVal
  | vnum : ℚ → PyVal
  | vstr : String → PyVal
  | vbool : Bool → PyVal
  | vnull : PyVal

/-- Python `d[k]` / `k in d` read: the value at the first binding of `k`. -/
def dictGet : List (String × PyVal) → String → Option PyVal
  | [], _ => none
  | (k', v') :: rest, k => if k' = k then some v' else dictGet rest k

/-- Python `d[k] = v`: replace the existing binding in place, else append. -/
def dictSet : List (String × PyVal) → String → PyVal → List (String × PyVal)
  | [], k, v => [(k, v)]
  | (k', v') :: rest, k, v =>
    if k' = k then (k, v) :: rest else (k', v') :: dictSet rest k v

/-- Python `result = default.copy(); result.update(user); return result`,
the shallow merge the source falls back to past the depth cap. -/
def dictUpdate (default user : List (String × PyVal)) : List (String × PyVal) :=
  user.foldl (fun acc kv => dictSet acc kv.1 kv.2) default

/-- The value one iteration of the `deep_merge_config` loop assigns to
`result[key]`: a key present in `result` (current value `cur`) with both
values dicts and not the literal `"__circular__"` merges recursively
(`rec` is the source's recursive call at `_depth + 1`), anything else is
the override value wholesale. -/
def mergeValue (rec : List (String × PyVal) → List (String × PyVal) → List (String × PyVal))
    (cur : Option PyVal) (k : String) (v : PyVal) : PyVal :=
  match cur, v with
  | some (PyVal.vdict dv), PyVal.vdict uv =>
    if k ≠ "__circular__" then PyVal.vdict (rec dv uv) else v
  | _, _ => v

/-- The `for key, value in user.items()` loop of `deep_merge_config`,
threading the mutated `result`: every iteration assigns
`result[key] = mergeValue rec result[key] key value`. -/
def mergeLoop (rec : List (String × PyVal) → List (String × PyVal) → List (String × PyVal)) :
    List (String × PyVal) → List (String × PyVal) → List (String × PyVal)
  | result, [] => result
  | result, (k, v) :: rest =>
    mergeLoop rec (dictSet result k (mergeValue rec (dictGet result k) k v)) rest

/-- `deep_merge_config` indexed by the remaining recursion budget: the
source tests `_depth > 10` and shallow-merges past the cap, so a call at
`_depth` has budget `11 - _depth`; budget 0 is the shallow branch. -/
def deepMergeFuel : ℕ → List (String × PyVal) → List (String × PyVal) → List (String × PyVal)
  | 0, default, user => dictUpdate default user
  | fuel + 1, default, user => mergeLoop (deepMergeFuel fuel) default user

/-- Embedding of `deep_merge_config` (classifier.py lines 24-42) at depth
counter `depth` (the source's `_depth`, 0 at the top-level call).  The
warning log in the capped branch carries no return value and is omitted
here. -/
def deep_merge_config (default user : List (String × PyVal)) (depth : ℕ) :
    List (String × PyVal) :=
  deepMergeFuel (11 - depth) default user

/-! ## Config deep merge on an explicit heap (for the no-mutation claim)

Python dicts are mutable heap objects; to state that `deep_merge_config`
never mutates its arguments we re-run the same code over an explicit
store: every dict is an address into a heap, `copy()` allocates, and
`result[key] = v` writes through the result's address only. -/

/-- A Python value as the merge sees it: dicts are heap references,
everything else is immutable and kept inline. -/
inductive HVal where
  | href : ℕ → HVal
  | hnum : ℚ → HVal
  | hstr : String → HVal
  | hbool : Bool → HVal
  | hnull : HVal

/-- First-binding read, as `dictGet`. -/
def hDictGet : List (String × HVal) → String → Option HVal
  | [], _ => none
  | (k', v') :: rest, k => if k' = k then some v' else hDictGet rest k

/-- In-place-or-append write, as `dictSet`. -/
def hDictSet : List (String × HVal) → String → HVal → List (String × HVal)
  | [], k, v => [(k, v)]
  | (k', v') :: rest, k, v =>
    if k' = k then (k, v) :: rest else (k', v') :: hDictSet rest k v

/-- `copy()` then `update(user)` entry-wise. -/
def hDictUpdate (default user : List (String × HVal)) : List (String × HVal) :=
  user.foldl (fun acc kv => hDictSet acc kv.1 kv.2) default

/-- The store of dict objects: `objs` maps addresses to dict contents,
`next` is the next fresh address. -/
structure Heap where
  objs : List (ℕ × List (String × HVal))
  next : ℕ

/-- Address lookup (first binding). -/
def hLookup : List (ℕ × List (String × HVal)) → ℕ → Option (List (String × HVal))
  | [], _ => none
  | (a', d) :: rest, a => if a' = a then some d else hLookup rest a

def Heap.get (h : Heap) (a : ℕ) : Option (List (String × HVal)) :=
  hLookup h.objs a

/-- Allocate a fresh dict object (Python `dict.copy()` / dict display). -/
def Heap.alloc (h : Heap) (d : List (String × HVal)) : Heap × ℕ :=
  ({ objs := (h.next, d) :: h.objs, next := h.next + 1 }, h.next)

/-- Overwrite the object stored at an existing address. -/
def hSetAt : List (ℕ × List (String × HVal)) → ℕ → List (String × HVal) →
    List (ℕ × List (String × HVal))
  | [], _, _ => []
  | (a', d') :: rest, a, d =>
    if a' = a then (a, d) :: rest else (a', d') :: hSetAt rest a d

def Heap.setObj (h : Heap) (a : ℕ) (d : List (String × HVal)) : Heap :=
  { h with objs := hSetAt h.objs a d }

/-- Every allocated address is below the fresh-address counter. -/
def Heap.WF (h : Heap) : Prop := ∀ p ∈ h.objs, p.1 < h.next

/-- The item loop of `deep_merge_config` over the heap: `r` is the address
of the freshly copied `result`, and `rec` the recursive call at
`_depth + 1` (which allocates and returns the merged dict's address).
`isinstance(x, dict)` is the `href` test. -/
def hMergeLoop (rec : Heap → ℕ → ℕ → Heap × ℕ) :
    Heap → ℕ → List (String × HVal) → Heap
  | h, _, [] => h
  | h, r, (k, v) :: rest =>
    let rd := (h.get r).getD []
    match hDictGet rd k, v with
    | some (HVal.href sa), HVal.href va =>
      if k ≠ "__circular__" then
        let hm := rec h sa va
        let rd' := (hm.1.get r).getD []
        hMergeLoop rec (hm.1.setObj r (hDictSet rd' k (HVal.href hm.2))) r rest
      else hMergeLoop rec (h.setObj r (hDictSet rd k v)) r rest
    | _, _ => hMergeLoop rec (h.setObj r (hDictSet rd k v)) r rest

/-- Heap version of `deep_merge_config`, fuel-indexed as `deepMergeFuel`:
fuel 0 is the shallow branch (one fresh copy updated with `user`'s
entries), otherwise `result = default.copy()` allocates and the item loop
runs over `user`'s entries. -/
def hMergeFuel : ℕ → Heap → ℕ → ℕ → Heap × ℕ
  | 0, h, da, ua =>
    h.alloc (hDictUpdate ((h.get da).getD []) ((h.get ua).getD []))
  | fuel + 1, h, da, ua =>
    let ar := h.alloc ((h.get da).getD [])
    (hMergeLoop (hMergeFuel fuel) ar.1 ar.2 ((ar.1.get ua).getD []), ar.2)

/-- `deep_merge_config` over the heap at depth counter `depth`. -/
def deep_merge_config_heap (h : Heap) (da ua : ℕ) (depth : ℕ) : Heap × ℕ :=
  hMergeFuel (11 - depth) h da ua

/-! ## Python string strip (used on the input path and the response text) -/

/-- Python `str.strip()` with no argument: drop whitespace from both
ends. -/
def pyStripL (l : List Char) : List Char :=
  ((l.dropWhile Char.isWhitespace).reverse.dropWhile Char.isWhitespace).reverse

def pyStripS (s : String) : String := ⟨pyStripL s.data⟩

/-! ## Score parsing (classifier.py lines 110-131)

The source searches the response text with the Python regex
`\b(?:100\.00|[0-9]{1,2}\.\d{2})\b` and converts the first match with
`float(...)`.  The matcher below reproduces `re.search` on that pattern:
leftmost position wins; at one position the alternation tries the literal
`100.00` first, then two digits (greedy) and then one digit before the
point; `\b` is a word/non-word boundary.  Word and digit classes are
modelled over ASCII, which covers every character the pattern itself can
match. -/

def isWordChar (c : Char) : Bool := c.isAlphanum || c = '_'

def isDigitChar (c : Char) : Bool := c.isDigit

/-- The trailing `\b` after a digit: end of text or a non-word character
next. -/
def boundaryOk : List Char → Bool
  | [] => true
  | c :: _ => !isWordChar c

/-- The alternative `100\.00` with its trailing boundary. -/
def tryLit : List Char → Option (List Char)
  | a :: b :: c :: d :: e :: f :: rest =>
    if a = '1' ∧ b = '0' ∧ c = '0' ∧ d = '.' ∧ e = '0' ∧ f = '0' ∧ boundaryOk rest then
      some [a, b, c, d, e, f]
    else none
  | _ => none

/-- The alternative `[0-9]{2}\.\d{2}` (the greedy two-digit try) with its
trailing boundary. -/
def tryD2 : List Char → Option (List Char)
  | a :: b :: c :: d :: e :: rest =>
    if isDigitChar a ∧ isDigitChar b ∧ c = '.' ∧ isDigitChar d ∧ isDigitChar e
        ∧ boundaryOk rest then
      some [a, b, c, d, e]
    else none
  | _ => none

/-- The alternative `[0-9]{1}\.\d{2}` (the one-digit backtrack) with its
trailing boundary. -/
def tryD1 : List Char → Option (List Char)
  | a :: b :: c :: d :: rest =>
    if isDigitChar a ∧ b = '.' ∧ isDigitChar c ∧ isDigitChar d ∧ boundaryOk rest then
      some [a, b, c, d]
    else none
  | _ => none

/-- One attempt of the whole pattern at the current position, in the
engine's preference order. -/
def tryMatch (l : List Char) : Option (List Char) :=
  match tryLit l with
  | some m => some m
  | none =>
    match tryD2 l with
    | some m => some m
    | none => tryD1 l

/-- `re.search`: scan positions left to right; `prevWord` is whether the
character before the current position is a word character (`false` at the
start of the text), so the leading `\b` holds exactly when it differs
from the current character's word-ness. -/
def searchScore : Bool → List Char → Option (List Char)
  | _, [] => none
  | prevWord, c :: rest =>
    match (if prevWord ≠ isWordChar c then tryMatch (c :: rest) else none) with
    | some m => some m
    | none => searchScore (isWordChar c) rest

def digitVal (c : Char) : ℕ := c.toNat - '0'.toNat

def digitsToNat (l : List Char) : ℕ :=
  l.foldl (fun acc c => 10 * acc + digitVal c) 0

/-- Python `float(match.group(0))` on a matched `digits.digits` string. -/
def parseTwoDecimal (m : List Char) : ℚ :=
  let ip := m.takeWhile (fun c => c != '.')
  let fp := (m.dropWhile (fun c => c != '.')).drop 1
  (digitsToNat ip : ℚ) + (digitsToNat fp : ℚ) / 10 ^ fp.length

/-- Embedding of `query_ollama` (classifier.py lines 110-131) as a
function of the network's observable outcome: `none` collapses every
failure before a response text is in hand (connection error, non-2xx
status, malformed JSON, missing `"response"` field), `some t` is the
response text.  The prompt does not influence the modelled outcome.  The
sentinel is `-1`. -/
def query_ollama (response : Option String) : ℚ :=
  match response with
  | none => -1
  | some t =>
    match searchScore false (pyStripL t.data) with
    | none => -1
    | some m => parseTwoDecimal m

/-! ## The claim's reading of the score parse (spec side, for C3)

The claim says the FIRST substring of the lexical shape "one or two
digits, a decimal point, exactly two digits, or the literal 100.00" is
parsed — with no word-boundary requirement.  These definitions follow the
claim's words for comparison with `searchScore`. -/

/-- The literal `100.00` as a bare prefix (claim's words: no boundary). -/
def shapeLit : List Char → Option (List Char)
  | a :: b :: c :: d :: e :: f :: _ =>
    if a = '1' ∧ b = '0' ∧ c = '0' ∧ d = '.' ∧ e = '0' ∧ f = '0' then
      some [a, b, c, d, e, f]
    else none
  | _ => none

/-- Two digits, point, two digits as a bare prefix. -/
def shapeD2 : List Char → Option (List Char)
  | a :: b :: c :: d :: e :: _ =>
    if isDigitChar a ∧ isDigitChar b ∧ c = '.' ∧ isDigitChar d ∧ isDigitChar e then
      some [a, b, c, d, e]
    else none
  | _ => none

/-- One digit, point, two digits as a bare prefix. -/
def shapeD1 : List Char → Option (List Char)
  | a :: b :: c :: d :: _ =>
    if isDigitChar a ∧ b = '.' ∧ isDigitChar c ∧ isDigitChar d then
      some [a, b, c, d]
    else none
  | _ => none

/-- A substring of the claim's lexical shape starting here. -/
def shapeHere (l : List Char) : Option (List Char) :=
  match shapeLit l with
  | some m => some m
  | none =>
    match shapeD2 l with
    | some m => some m
    | none => shapeD1 l

/-- The claim's "FIRST substring matching the lexical shape": leftmost
occurrence, no boundary requirement. -/
def claimFirstShape : List Char → Option (List Char)
  | [] => none
  | c :: rest =>
    match shapeHere (c :: rest) with
    | some m => some m
    | none => claimFirstShape rest

/-- `m` has the pattern's lexical shape (digits written out as character
predicates). -/
def IsShape (m : List Char) : Prop :=
  m = ['1', '0', '0', '.', '0', '0']
  ∨ (∃ a b d e, isDigitChar a = true ∧ isDigitChar b = true ∧ isDigitChar d = true
      ∧ isDigitChar e = true ∧ m = [a, b, '.', d, e])
  ∨ (∃ a d e, isDigitChar a = true ∧ isDigitChar d = true ∧ isDigitChar e = true
      ∧ m = [a, '.', d, e])

/-- `m` is a shape occurrence at the head of `l` whose trailing boundary
holds. -/
def MatchPre (l m : List Char) : Prop :=
  IsShape m ∧ ∃ rest, l = m ++ rest ∧ boundaryOk rest = true

/-- Word-ness of the character before position `i` (`pw` stands before
position 0). -/
def prevIsWord (pw : Bool) (l : List Char) (i : ℕ) : Bool :=
  match i with
  | 0 => pw
  | j + 1 => ((l.get? j).map isWordChar).getD true

/-- A boundary-delimited shape occurrence of `m` at position `i` of `l`:
the character before `i` is not a word character (shapes start with a
digit, so that is the leading `\b`), and `m` sits at `i` with its
trailing boundary. -/
def BoundedShapeAt (pw : Bool) (l : List Char) (i : ℕ) (m : List Char) : Prop :=
  prevIsWord pw l i = false ∧ MatchPre (l.drop i) m

/-! ## MIME message extraction (classifier.py lines 149-208) -/

mutual

/-- A parsed MIME part as the `email` module presents it to
`extract_snippet`: a non-multipart part carries its content type and the
outcome of `get_payload(decode=True)` + charset decode (`none` when the
payload is unavailable or decoding raises, which the source's `except`
arms turn into "skip"); a multipart part carries its subparts.
`walk()` order is the part itself, then each subpart depth-first. -/
inductive MimeMsg where
  | leaf (ctype : String) (payload : Option String)
  | multi (ctype : String) (parts : MimeList)

inductive MimeList where
  | mnil
  | mcons (m : MimeMsg) (ms : MimeList)

end

def isMultipart : MimeMsg → Bool
  | .leaf _ _ => false
  | .multi _ _ => true

def contentType : MimeMsg → String
  | .leaf t _ => t
  | .multi t _ => t

/-- `msg.get_payload(decode=True)` on the top-level message: `None` for a
multipart message. -/
def topPayload : MimeMsg → Option String
  | .leaf _ p => p
  | .multi _ _ => none

mutual

/-- The first `walk()` part of content type `text/plain` whose payload is
available (an unavailable payload hits the loop's `except: continue`).
A multipart node's own `get_payload(decode=True)` is `None`, so only
leaves can deliver. -/
def firstPlain : MimeMsg → Option String
  | .leaf t p => if t = "text/plain" then p else none
  | .multi _ ps => firstPlainL ps

def firstPlainL : MimeList → Option String
  | .mnil => none
  | .mcons m ms =>
    match firstPlain m with
    | some s => some s
    | none => firstPlainL ms

end

/-- The lazy close of Python's tag regex `<[^<]+?>` after its first gap
character: the first `>` ends the match, a `<` aborts it. -/
def closeTag : List Char → Option (List Char)
  | [] => none
  | c :: rest =>
    if c = '>' then some rest
    else if c = '<' then none
    else closeTag rest

/-- Given the text after a `<`: the match needs at least one non-`<` gap
character and then the lazy close; returns the text after the match. -/
def findTagEnd : List Char → Option (List Char)
  | [] => none
  | c :: rest => if c = '<' then none else closeTag rest

/-- `re.sub('<[^<]+?>', '', html)`: scan left to right, remove each
non-overlapping match, keep a `<` that opens no match.  Each step consumes
at least one character, so `l.length` fuel suffices. -/
def stripTagsFuel : ℕ → List Char → List Char
  | 0, l => l
  | _ + 1, [] => []
  | fuel + 1, c :: rest =>
    if c = '<' then
      match findTagEnd rest with
      | some rest' => stripTagsFuel fuel rest'
      | none => c :: stripTagsFuel fuel rest
    else c :: stripTagsFuel fuel rest

def stripTags (l : List Char) : List Char := stripTagsFuel l.length l

mutual

/-- The html fallback loop: the first `walk()` part of content type
`text/html` whose payload is available, with tags stripped. -/
def firstHtml : MimeMsg → Option (List Char)
  | .leaf t p =>
    if t = "text/html" then p.map (fun s => stripTags s.data) else none
  | .multi _ ps => firstHtmlL ps

def firstHtmlL : MimeList → Option (List Char)
  | .mnil => none
  | .mcons m ms =>
    match firstHtml m with
    | some s => some s
    | none => firstHtmlL ms

end

/-- A successfully opened and parsed email file: the decoded `From` and
`Subject` headers (`none` when the header is absent) and the MIME
structure. -/
structure EmailFile where
  fromHeader : Option String
  subjectHeader : Option String
  msg : MimeMsg

/-- Embedding of `extract_snippet` (classifier.py lines 149-208) as a
function of the open-and-parse outcome (`none`: the `msg_path.open` /
parse raised, the source returns `("", "")`).  Body selection: a
multipart message takes its first available `text/plain` part, a
non-multipart message takes its payload whatever its content type; a
blank body falls back, for multipart messages, to the first `text/html`
part with tags stripped, and for non-multipart `text/html` messages to a
tag-stripped re-read of the payload.  The final extract is
`(subject + "\n" + body).strip()[:max_bytes]`. -/
def extract_snippet (max_bytes : ℕ) : Option EmailFile → String × String
  | none => ("", "")
  | some f =>
    let sender := f.fromHeader.getD "(unknown sender)"
    let subject := f.subjectHeader.getD "(no subject)"
    let body : String :=
      if isMultipart f.msg then
        match firstPlain f.msg with
        | some s => s
        | none => ""
      else
        match topPayload f.msg with
        | some s => s
        | none => ""
    let body :=
      if pyStripS body = "" ∧ isMultipart f.msg then
        match firstHtml f.msg with
        | some stripped => String.mk stripped
        | none => body
      else body
    let body :=
      if pyStripS body = "" ∧ ¬ isMultipart f.msg ∧ contentType f.msg = "text/html" then
        match topPayload f.msg with
        | some s => String.mk (stripTags s.data)
        | none => body
      else body
    (sender, String.mk ((pyStripL (subject ++ "\n" ++ body).data).take max_bytes))

/-! ## The orchestrator (classifier.py lines 210-284) -/

/-- The observable environment of one `classify_message_file` run:
whether appending to the log file succeeds (one flag — the log file's
writability is shared by every append of the run), which paths exist,
which paths open and parse into which message, and the model endpoint's
outcome (as in `query_ollama`). -/
structure World where
  logOk : Bool
  existing : List String
  files : List (String × EmailFile)
  response : Option String

def fileLookup : List (String × EmailFile) → String → Option EmailFile
  | [], _ => none
  | (p, f) :: rest, q => if p = q then some f else fileLookup rest q

def pathExists (w : World) (p : String) : Bool := w.existing.contains p

/-- Embedding of `log_message` (classifier.py lines 19-22): opening the
log for append and writing; the open or write raises when the log is not
writable — the source has no handler around it. -/
def log_message (w : World) : Except Unit Unit :=
  if w.logOk then Except.ok () else Except.error ()

/-- Embedding of `classify_message_file` (classifier.py lines 210-284).
The first component is the run's outcome: `Except.error` when an
unhandled exception escapes to the caller (the only source of one in the
body is `log_message`), otherwise the returned classification.  The
second component records whether `query_ollama` was invoked.  The path is
stripped before the existence check and the read; the structured `ENTRY`
log write is wrapped in `try/except` in the source and so never raises;
prompt construction does not influence the modelled response. -/
def classify_message_file (w : World) (config : Config) (path_str : String) :
    Except Unit String × Bool :=
  match log_message w with
  | Except.error e => (Except.error e, false)
  | Except.ok _ =>
    let path := pyStripS path_str
    if pathExists w path = false then (Except.ok "none", false)
    else
      let se := extract_snippet config.max_bytes (fileLookup w.files path)
      if se.2 = "" then (Except.ok "none", false)
      else
        let score := query_ollama w.response
        (Except.ok (get_classification_for_score score config), true)

end EmailFlagger

namespace EmailFlagger

/-! ## C1: threshold classification -/

/-- C1: for every configuration and score, `get_classification_for_score`
returns "none" for a negative score, else "red" from `red_min` up
(inclusive), else "blue" from `blue_min` up (inclusive), else "none"; the
last two conjuncts make the boundary inclusivity explicit — a score
exactly equal to the (non-negative) threshold lands in that tier. -/
theorem get_classification_chain (config : Config) (s : ℚ) :
    (s < 0 → get_classification_for_score s config = "none")
    ∧ (0 ≤ s → config.red_min ≤ s → get_classification_for_score s config = "red")
    ∧ (0 ≤ s → s < config.red_min → config.blue_min ≤ s →
        get_classification_for_score s config = "blue")
    ∧ (0 ≤ s → s < config.red_min → s < config.blue_min →
        get_classification_for_score s config = "none")
    ∧ (0 ≤ config.red_min →
        get_classification_for_score config.red_min config = "red")
    ∧ (0 ≤ config.blue_min → config.blue_min < config.red_min →
        get_classification_for_score config.blue_min config = "blue") := by
  unfold get_classification_for_score
  refine ⟨fun h => by rw [if_pos h], fun h0 hr => ?_, fun h0 hr hb => ?_, fun h0 hr hb => ?_,
    fun h0 => ?_, fun h0 hbr => ?_⟩
  · rw [if_neg (not_lt.mpr h0), if_pos hr]
  · rw [if_neg (not_lt.mpr h0), if_neg (not_le.mpr hr), if_pos hb]
  · rw [if_neg (not_lt.mpr h0), if_neg (not_le.mpr hr), if_neg (not_le.mpr hb)]
  · rw [if_neg (not_lt.mpr h0), if_pos (le_refl _)]
  · rw [if_neg (not_lt.mpr h0), if_neg (not_le.mpr hbr), if_pos (le_refl _)]

/-- Witness for C1: the default thresholds classify the boundary score 80
as "red". -/
theorem get_classification_chain_witness :
    get_classification_for_score 80 {red_min := 80, blue_min := 60, max_bytes := 2048} = "red" :=
  (get_classification_chain {red_min := 80, blue_min := 60, max_bytes := 2048} 80).2.1
    (by norm_num) (by norm_num)

/-! ## C7: the recursion depth cap -/

/-- C7: past the depth cap (`_depth > 10`) `deep_merge_config` is the
single non-recursive overlay of top-level keys (`copy` + `update`); with
the cap the merge is total on every finite input. -/
theorem deep_merge_depth_cap (default user : List (String × PyVal)) (depth : ℕ)
    (h : 10 < depth) :
    deep_merge_config default user depth = dictUpdate default user := by
  unfold deep_merge_config
  rw [Nat.sub_eq_zero_of_le h]
  rfl

/-- Witness for C7 at depth 11. -/
theorem deep_merge_depth_cap_witness :
    deep_merge_config [("a", PyVal.vdict [("x", PyVal.vnum 1)])]
        [("a", PyVal.vdict [("y", PyVal.vnum 2)])] 11
      = dictUpdate [("a", PyVal.vdict [("x", PyVal.vnum 1)])]
        [("a", PyVal.vdict [("y", PyVal.vnum 2)])] :=
  deep_merge_depth_cap _ _ 11 (by norm_num)

/-! ## C6: key-wise description of the deep merge -/

theorem dictGet_dictSet_same (d : List (String × PyVal)) (k : String) (v : PyVal) :
    dictGet (dictSet d k v) k = some v := by
  induction d with
  | nil => simp [dictSet, dictGet]
  | cons p rest ih =>
    obtain ⟨k0, v0⟩ := p
    by_cases h : k0 = k
    · simp [dictSet, h, dictGet]
    · simp [dictSet, h, dictGet, ih]

theorem dictGet_dictSet_ne (d : List (String × PyVal)) (k k' : String) (v : PyVal)
    (h : k' ≠ k) : dictGet (dictSet d k v) k' = dictGet d k' := by
  induction d with
  | nil =>
    simp [dictSet, dictGet, Ne.symm h]
  | cons p rest ih =>
    obtain ⟨k0, v0⟩ := p
    by_cases h0 : k0 = k
    · subst h0
      simp [dictSet, dictGet, Ne.symm h]
    · simp [dictSet, h0, dictGet, ih]

theorem dictGet_eq_none (d : List (String × PyVal)) (k : String) :
    dictGet d k = none ↔ k ∉ d.map Prod.fst := by
  induction d with
  | nil => simp [dictGet]
  | cons p rest ih =>
    obtain ⟨k0, v0⟩ := p
    by_cases h : k0 = k
    · subst h
      simp [dictGet]
    · simp [dictGet, h, ih, Ne.symm h]

theorem mergeLoop_get_of_not_mem
    (rec : List (String × PyVal) → List (String × PyVal) → List (String × PyVal))
    (items : List (String × PyVal)) :
    ∀ (result : List (String × PyVal)) (k : String), k ∉ items.map Prod.fst →
      dictGet (mergeLoop rec result items) k = dictGet result k := by
  induction items with
  | nil => intro result k _; rfl
  | cons p rest ih =>
    intro result k hk
    obtain ⟨k0, v0⟩ := p
    rw [List.map_cons, List.mem_cons] at hk
    push_neg at hk
    obtain ⟨hne, hnot⟩ := hk
    show dictGet (mergeLoop rec _ rest) k = _
    rw [ih _ k hnot, dictGet_dictSet_ne _ _ _ _ hne]

theorem mergeLoop_get_of_mem
    (rec : List (String × PyVal) → List (String × PyVal) → List (String × PyVal))
    (items : List (String × PyVal)) :
    ∀ (result : List (String × PyVal)) (k : String) (v : PyVal),
      (items.map Prod.fst).Nodup → dictGet items k = some v →
      dictGet (mergeLoop rec result items) k =
        some (mergeValue rec (dictGet result k) k v) := by
  induction items with
  | nil => intro result k v _ h; simp [dictGet] at h
  | cons p rest ih =>
    intro result k v hnd hget
    obtain ⟨k0, v0⟩ := p
    rw [List.map_cons, List.nodup_cons] at hnd
    obtain ⟨hk0, hndr⟩ := hnd
    by_cases hk : k0 = k
    · subst hk
      rw [show dictGet ((k0, v0) :: rest) k0 = some v0 by simp [dictGet]] at hget
      obtain rfl : v0 = v := by injection hget
      show dictGet (mergeLoop rec _ rest) k0 = _
      rw [mergeLoop_get_of_not_mem rec rest _ k0 hk0, dictGet_dictSet_same]
    · have hget' : dictGet rest k = some v := by
        rw [show dictGet ((k0, v0) :: rest) k = dictGet rest k by simp [dictGet, hk]] at hget
        exact hget
      show dictGet (mergeLoop rec _ rest) k = _
      rw [ih _ k v hndr hget', dictGet_dictSet_ne _ _ _ _ (fun he => hk he.symm)]

/-- C6 (amended): within the depth cap, every key of the merged dict is
described key-wise — a key absent from `user` keeps its `default` value;
a key present in `user` gets `mergeValue`, i.e. the recursive merge at
`depth + 1` when both values are dicts and the key is not the reserved
literal `"__circular__"`, and the override value wholesale otherwise. -/
theorem deep_merge_lookup (default user : List (String × PyVal)) (depth : ℕ)
    (hdepth : depth ≤ 10) (hnodup : (user.map Prod.fst).Nodup) (k : String) :
    (dictGet user k = none →
      dictGet (deep_merge_config default user depth) k = dictGet default k)
    ∧ (∀ v, dictGet user k = some v →
      dictGet (deep_merge_config default user depth) k =
        some (mergeValue (fun dv uv => deep_merge_config dv uv (depth + 1))
          (dictGet default k) k v)) := by
  have hfuel : 11 - depth = (10 - depth) + 1 := by omega
  have hfuel2 : 11 - (depth + 1) = 10 - depth := by omega
  simp only [deep_merge_config, hfuel, hfuel2, deepMergeFuel]
  constructor
  · intro hnone
    exact mergeLoop_get_of_not_mem _ _ _ _ ((dictGet_eq_none user k).mp hnone)
  · intro v hv
    exact mergeLoop_get_of_mem _ _ _ _ _ hnodup hv

/-- Witness for C6's amended statement: a fresh key of `user` lands in
the merge unchanged. -/
theorem deep_merge_lookup_witness :
    dictGet (deep_merge_config [("a", PyVal.vnum 1)] [("b", PyVal.vnum 3)] 0) "b"
      = some (PyVal.vnum 3) :=
  (deep_merge_lookup [("a", PyVal.vnum 1)] [("b", PyVal.vnum 3)] 0
    (by norm_num) (by simp) "b").2 (PyVal.vnum 3) rfl

/-- Counterexample for C6 as frozen: at the key `"__circular__"` the code
replaces wholesale even when both values are dicts, where the claim
prescribes the recursive key-wise merge. -/
theorem deep_merge_circular_cex :
    deep_merge_config [("__circular__", PyVal.vdict [("a", PyVal.vnum 1)])]
        [("__circular__", PyVal.vdict [("b", PyVal.vnum 2)])] 0
      = [("__circular__", PyVal.vdict [("b", PyVal.vnum 2)])]
    ∧ PyVal.vdict [("b", PyVal.vnum 2)]
        ≠ PyVal.vdict (deep_merge_config [("a", PyVal.vnum 1)] [("b", PyVal.vnum 2)] 1) := by
  refine ⟨rfl, ?_⟩
  rw [show deep_merge_config [("a", PyVal.vnum 1)] [("b", PyVal.vnum 2)] 1
      = [("a", PyVal.vnum 1), ("b", PyVal.vnum 2)] from rfl]
  simp

/-! ## C9: the input path is stripped (helper: `strip` is idempotent) -/

theorem dropWhile_head_not {p : Char → Bool} :
    ∀ {l x xs}, List.dropWhile p l = x :: xs → p x = false := by
  intro l
  induction l with
  | nil => intro x xs h; simp [List.dropWhile] at h
  | cons a t ih =>
    intro x xs h
    by_cases ha : p a
    · rw [List.dropWhile_cons, if_pos ha] at h
      exact ih h
    · rw [List.dropWhile_cons, if_neg ha] at h
      injection h with h1 _
      subst h1
      exact Bool.eq_false_iff.mpr ha

theorem dropWhile_idem {p : Char → Bool} (l : List Char) :
    List.dropWhile p (List.dropWhile p l) = List.dropWhile p l := by
  cases h : List.dropWhile p l with
  | nil => rfl
  | cons x xs =>
    rw [List.dropWhile_cons, if_neg]
    rw [dropWhile_head_not h]
    simp

theorem exists_append_dropWhile {p : Char → Bool} :
    ∀ l : List Char, ∃ s, s ++ List.dropWhile p l = l := by
  intro l
  induction l with
  | nil => exact ⟨[], rfl⟩
  | cons a t ih =>
    by_cases ha : p a
    · obtain ⟨s, hs⟩ := ih
      exact ⟨a :: s, by rw [List.dropWhile_cons, if_pos ha, List.cons_append, hs]⟩
    · exact ⟨[], by rw [List.dropWhile_cons, if_neg ha, List.nil_append]⟩

theorem pyStripL_head_not_space :
    ∀ {l x xs}, pyStripL l = x :: xs → Char.isWhitespace x = false := by
  intro l x xs h
  unfold pyStripL at h
  obtain ⟨s, hs⟩ := exists_append_dropWhile (p := Char.isWhitespace)
    ((l.dropWhile Char.isWhitespace).reverse)
  have hl1 : l.dropWhile Char.isWhitespace = x :: (xs ++ s.reverse) := by
    have := congrArg List.reverse hs
    rw [List.reverse_append, List.reverse_reverse, h] at this
    rw [← this]
    simp
  exact dropWhile_head_not hl1

theorem pyStripL_idem (l : List Char) : pyStripL (pyStripL l) = pyStripL l := by
  have h1 : List.dropWhile Char.isWhitespace (pyStripL l) = pyStripL l := by
    cases h : pyStripL l with
    | nil => rfl
    | cons x xs =>
      rw [List.dropWhile_cons, if_neg]
      rw [pyStripL_head_not_space h]
      simp
  have h2 : (pyStripL l).reverse
      = List.dropWhile Char.isWhitespace ((l.dropWhile Char.isWhitespace).reverse) := by
    unfold pyStripL
    rw [List.reverse_reverse]
  show ((List.dropWhile Char.isWhitespace (pyStripL l)).reverse.dropWhile
      Char.isWhitespace).reverse = pyStripL l
  rw [h1, h2, dropWhile_idem, ← h2, List.reverse_reverse]

theorem pyStripS_idem (s : String) : pyStripS (pyStripS s) = pyStripS s :=
  congrArg String.mk (pyStripL_idem s.data)

/-- C9: the orchestrator strips the input path before the existence check
and the read, so a path surrounded by whitespace classifies exactly as
the trimmed path. -/
theorem classify_strip_invariant (w : World) (config : Config) (p : String) :
    classify_message_file w config p = classify_message_file w config (pyStripS p) := by
  unfold classify_message_file
  rw [pyStripS_idem]

/-! ## C5: a non-existent path -/

/-- C5: when the stripped path does not exist, the model is never invoked,
and (when the log is writable, see C2) the run returns "none". -/
theorem classify_nonexistent (w : World) (config : Config) (p : String)
    (h : pathExists w (pyStripS p) = false) :
    (classify_message_file w config p).2 = false
    ∧ (w.logOk = true → (classify_message_file w config p).1 = Except.ok "none") := by
  unfold classify_message_file log_message
  cases hl : w.logOk with
  | false => exact ⟨rfl, fun hc => nomatch hc⟩
  | true => simp [h]

/-- Witness for C5 at a concrete world and path. -/
theorem classify_nonexistent_witness :
    (classify_message_file ⟨true, [], [], none⟩ {} "/no/such/file").2 = false
    ∧ (classify_message_file ⟨true, [], [], none⟩ {} "/no/such/file").1
        = Except.ok "none" := by
  have h := classify_nonexistent ⟨true, [], [], none⟩ {} "/no/such/file" (by decide)
  exact ⟨h.1, h.2 rfl⟩

/-! ## Evaluation helpers: `ℚ` arithmetic does not reduce definitionally
(`Rat.add` normalizes through `Nat.gcd`), so concrete scores are computed
via these lemmas and `norm_num`. -/

theorem parseTwoDecimal_eq (m : List Char) (a b n : ℕ)
    (h1 : digitsToNat (m.takeWhile (fun c => c != '.')) = a)
    (h2 : digitsToNat ((m.dropWhile (fun c => c != '.')).drop 1) = b)
    (h3 : ((m.dropWhile (fun c => c != '.')).drop 1).length = n) :
    parseTwoDecimal m = (a : ℚ) + (b : ℚ) / 10 ^ n := by
  simp only [parseTwoDecimal, h1, h2, h3]

/-- The orchestrator's success path: writable log, existing path,
non-empty snippet. -/
theorem classify_success (w : World) (config : Config) (p : String)
    (hlog : w.logOk = true)
    (hex : pathExists w (pyStripS p) = true)
    (hsnip : ¬ (extract_snippet config.max_bytes (fileLookup w.files (pyStripS p))).2 = "") :
    classify_message_file w config p =
      (Except.ok (get_classification_for_score (query_ollama w.response) config), true) := by
  unfold classify_message_file log_message
  rw [hlog]
  simp [hex, hsnip]

/-! ## C8: every returned score is the sentinel or lies in [0, 100] -/

theorem digitVal_le_nine {c : Char} (h : isDigitChar c = true) : digitVal c ≤ 9 := by
  unfold isDigitChar Char.isDigit at h
  rw [Bool.and_eq_true, decide_eq_true_eq, decide_eq_true_eq] at h
  obtain ⟨h1, h2⟩ := h
  have h2' : c.val.toNat ≤ (57 : UInt32).toNat := h2
  rw [show (57 : UInt32).toNat = 57 from by decide] at h2'
  show c.val.toNat - '0'.toNat ≤ 9
  rw [show '0'.toNat = 48 from by decide]
  omega

theorem digit_ne_dot {c : Char} (h : isDigitChar c = true) : (c != '.') = true := by
  rw [bne_iff_ne]
  intro he
  subst he
  exact absurd h (by decide)

theorem isWordChar_of_digit {c : Char} (h : isDigitChar c = true) : isWordChar c = true := by
  unfold isDigitChar at h
  simp [isWordChar, Char.isAlphanum, h]

theorem takeWhile_shape2 {a b d e : Char} (ha : isDigitChar a = true)
    (hb : isDigitChar b = true) :
    List.takeWhile (fun c => c != '.') [a, b, '.', d, e] = [a, b] := by
  simp [List.takeWhile_cons, digit_ne_dot ha, digit_ne_dot hb]

theorem dropWhile_shape2 {a b d e : Char} (ha : isDigitChar a = true)
    (hb : isDigitChar b = true) :
    (List.dropWhile (fun c => c != '.') [a, b, '.', d, e]).drop 1 = [d, e] := by
  simp [List.dropWhile_cons, digit_ne_dot ha, digit_ne_dot hb]

theorem takeWhile_shape1 {a d e : Char} (ha : isDigitChar a = true) :
    List.takeWhile (fun c => c != '.') [a, '.', d, e] = [a] := by
  simp [List.takeWhile_cons, digit_ne_dot ha]

theorem dropWhile_shape1 {a d e : Char} (ha : isDigitChar a = true) :
    (List.dropWhile (fun c => c != '.') [a, '.', d, e]).drop 1 = [d, e] := by
  simp [List.dropWhile_cons, digit_ne_dot ha]

theorem parse_d2 {a b d e : Char} (ha : isDigitChar a = true) (hb : isDigitChar b = true)
    (_hd : isDigitChar d = true) (_he : isDigitChar e = true) :
    parseTwoDecimal [a, b, '.', d, e]
      = ((10 * digitVal a + digitVal b : ℕ) : ℚ)
        + ((10 * digitVal d + digitVal e : ℕ) : ℚ) / 10 ^ 2 := by
  refine parseTwoDecimal_eq _ _ _ _ ?_ ?_ ?_
  · rw [takeWhile_shape2 ha hb]
    simp [digitsToNat]
  · rw [dropWhile_shape2 ha hb]
    simp [digitsToNat]
  · rw [dropWhile_shape2 ha hb]
    rfl

theorem parse_d1 {a d e : Char} (ha : isDigitChar a = true)
    (_hd : isDigitChar d = true) (_he : isDigitChar e = true) :
    parseTwoDecimal [a, '.', d, e]
      = ((digitVal a : ℕ) : ℚ) + ((10 * digitVal d + digitVal e : ℕ) : ℚ) / 10 ^ 2 := by
  refine parseTwoDecimal_eq _ _ _ _ ?_ ?_ ?_
  · rw [takeWhile_shape1 ha]
    simp [digitsToNat]
  · rw [dropWhile_shape1 ha]
    simp [digitsToNat]
  · rw [dropWhile_shape1 ha]
    rfl

theorem parse_lit_100 : parseTwoDecimal ['1', '0', '0', '.', '0', '0'] = 100 := by
  rw [parseTwoDecimal_eq _ 100 0 2 (by decide) (by decide) (by decide)]
  norm_num

theorem parse_d2_range {a b d e : Char} (ha : isDigitChar a = true) (hb : isDigitChar b = true)
    (hd : isDigitChar d = true) (he : isDigitChar e = true) :
    0 ≤ parseTwoDecimal [a, b, '.', d, e] ∧ parseTwoDecimal [a, b, '.', d, e] ≤ 100 := by
  rw [parse_d2 ha hb hd he]
  have hx : ((10 * digitVal a + digitVal b : ℕ) : ℚ) ≤ 99 := by
    exact_mod_cast (by have := digitVal_le_nine ha; have := digitVal_le_nine hb; omega :
      (10 * digitVal a + digitVal b : ℕ) ≤ 99)
  have hy : ((10 * digitVal d + digitVal e : ℕ) : ℚ) ≤ 99 := by
    exact_mod_cast (by have := digitVal_le_nine hd; have := digitVal_le_nine he; omega :
      (10 * digitVal d + digitVal e : ℕ) ≤ 99)
  have hdiv : ((10 * digitVal d + digitVal e : ℕ) : ℚ) / 10 ^ 2 ≤ 1 := by
    rw [div_le_one (by norm_num : (0 : ℚ) < 10 ^ 2)]
    exact hy.trans (by norm_num)
  constructor
  · positivity
  · linarith

theorem parse_d1_range {a d e : Char} (ha : isDigitChar a = true)
    (hd : isDigitChar d = true) (he : isDigitChar e = true) :
    0 ≤ parseTwoDecimal [a, '.', d, e] ∧ parseTwoDecimal [a, '.', d, e] ≤ 100 := by
  rw [parse_d1 ha hd he]
  have hx : ((digitVal a : ℕ) : ℚ) ≤ 9 := by
    exact_mod_cast digitVal_le_nine ha
  have hy : ((10 * digitVal d + digitVal e : ℕ) : ℚ) ≤ 99 := by
    exact_mod_cast (by have := digitVal_le_nine hd; have := digitVal_le_nine he; omega :
      (10 * digitVal d + digitVal e : ℕ) ≤ 99)
  have hdiv : ((10 * digitVal d + digitVal e : ℕ) : ℚ) / 10 ^ 2 ≤ 1 := by
    rw [div_le_one (by norm_num : (0 : ℚ) < 10 ^ 2)]
    exact hy.trans (by norm_num)
  constructor
  · positivity
  · linarith

theorem tryLit_some {l m : List Char} (h : tryLit l = some m) :
    m = ['1', '0', '0', '.', '0', '0'] ∧ ∃ rest, l = m ++ rest ∧ boundaryOk rest = true := by
  unfold tryLit at h
  split at h
  next a b c d e f rest =>
    split_ifs at h with hc
    obtain ⟨ha, hb, hc', hd, he, hf, hbd⟩ := hc
    subst ha; subst hb; subst hc'; subst hd; subst he; subst hf
    injection h with hm
    subst hm
    exact ⟨rfl, rest, rfl, hbd⟩
  next => exact absurd h (by simp)

theorem tryD2_some {l m : List Char} (h : tryD2 l = some m) :
    ∃ a b d e rest, isDigitChar a = true ∧ isDigitChar b = true ∧ isDigitChar d = true
      ∧ isDigitChar e = true ∧ m = [a, b, '.', d, e] ∧ l = m ++ rest
      ∧ boundaryOk rest = true := by
  unfold tryD2 at h
  split at h
  next a b c d e rest =>
    split_ifs at h with hc
    obtain ⟨ha, hb, hc', hd, he, hbd⟩ := hc
    subst hc'
    injection h with hm
    subst hm
    exact ⟨a, b, d, e, rest, ha, hb, hd, he, rfl, rfl, hbd⟩
  next => exact absurd h (by simp)

theorem tryD1_some {l m : List Char} (h : tryD1 l = some m) :
    ∃ a d e rest, isDigitChar a = true ∧ isDigitChar d = true ∧ isDigitChar e = true
      ∧ m = [a, '.', d, e] ∧ l = m ++ rest ∧ boundaryOk rest = true := by
  unfold tryD1 at h
  split at h
  next a b c d rest =>
    split_ifs at h with hc
    obtain ⟨ha, hb, hc', hd, hbd⟩ := hc
    subst hb
    injection h with hm
    subst hm
    exact ⟨a, c, d, rest, ha, hc', hd, rfl, rfl, hbd⟩
  next => exact absurd h (by simp)

theorem tryMatch_range {l m : List Char} (h : tryMatch l = some m) :
    0 ≤ parseTwoDecimal m ∧ parseTwoDecimal m ≤ 100 := by
  unfold tryMatch at h
  rcases h1 : tryLit l with _ | m1
  · rw [h1] at h
    rcases h2 : tryD2 l with _ | m2
    · rw [h2] at h
      obtain ⟨a, d, e, rest, ha, hd, he, hm, -, -⟩ := tryD1_some h
      subst hm
      exact parse_d1_range ha hd he
    · rw [h2] at h
      injection h with hm
      subst hm
      obtain ⟨a, b, d, e, rest, ha, hb, hd, he, hm, -, -⟩ := tryD2_some h2
      subst hm
      exact parse_d2_range ha hb hd he
  · rw [h1] at h
    injection h with hm
    subst hm
    obtain ⟨hm, -⟩ := tryLit_some h1
    subst hm
    refine ⟨?_, ?_⟩ <;> rw [parse_lit_100]
    · norm_num

theorem searchScore_range :
    ∀ (l : List Char) (pw : Bool) (m : List Char), searchScore pw l = some m →
      0 ≤ parseTwoDecimal m ∧ parseTwoDecimal m ≤ 100 := by
  intro l
  induction l with
  | nil => intro pw m h; exact absurd h (by simp [searchScore])
  | cons c rest ih =>
    intro pw m h
    unfold searchScore at h
    rcases hh : (if pw ≠ isWordChar c then tryMatch (c :: rest) else none) with _ | m0
    · rw [hh] at h
      exact ih _ _ h
    · rw [hh] at h
      injection h with hm
      subst hm
      split_ifs at hh with hcond
      exact tryMatch_range hh

/-- C8: `query_ollama` returns the sentinel `-1` or a score in the
inclusive range `[0, 100]`: the matched lexical shape bounds the parsed
number by `99.99` or exactly `100.00`, and every failure path returns the
sentinel. -/
theorem query_ollama_range (response : Option String) :
    query_ollama response = -1
    ∨ (0 ≤ query_ollama response ∧ query_ollama response ≤ 100) := by
  cases response with
  | none => exact Or.inl rfl
  | some t =>
    simp only [query_ollama]
    rcases h : searchScore false (pyStripL t.data) with _ | m
    · exact Or.inl rfl
    · exact Or.inr (searchScore_range _ _ _ h)

/-! ## C3: what the score parse actually matches -/

theorem tryMatch_matchPre {l m : List Char} (h : tryMatch l = some m) : MatchPre l m := by
  unfold tryMatch at h
  rcases h1 : tryLit l with _ | m1
  · rw [h1] at h
    rcases h2 : tryD2 l with _ | m2
    · rw [h2] at h
      obtain ⟨a, d, e, rest, ha, hd, he, hm, hl, hbd⟩ := tryD1_some h
      exact ⟨Or.inr (Or.inr ⟨a, d, e, ha, hd, he, hm⟩), rest, hl, hbd⟩
    · rw [h2] at h
      injection h with hm'
      subst hm'
      obtain ⟨a, b, d, e, rest, ha, hb, hd, he, hm, hl, hbd⟩ := tryD2_some h2
      exact ⟨Or.inr (Or.inl ⟨a, b, d, e, ha, hb, hd, he, hm⟩), rest, hl, hbd⟩
  · rw [h1] at h
    injection h with hm'
    subst hm'
    obtain ⟨hm, rest, hl, hbd⟩ := tryLit_some h1
    exact ⟨Or.inl hm, rest, hl, hbd⟩

theorem matchPre_tryMatch {l m : List Char} (hm : MatchPre l m) : tryMatch l = some m := by
  obtain ⟨hshape, rest, hl, hbd⟩ := hm
  rcases hshape with hlit | ⟨a, b, d, e, ha, hb, hd, he, hm2⟩ | ⟨a, d, e, ha, hd, he, hm1⟩
  · subst hlit
    subst hl
    unfold tryMatch
    rw [show tryLit (['1', '0', '0', '.', '0', '0'] ++ rest) = some ['1', '0', '0', '.', '0', '0']
      from by simp [tryLit, hbd]]
  · subst hm2
    subst hl
    unfold tryMatch
    have hlitn : tryLit ([a, b, '.', d, e] ++ rest) = none := by
      cases rest with
      | nil => rfl
      | cons r0 rest' =>
        simp only [List.cons_append, List.nil_append, tryLit]
        rw [if_neg]
        rintro ⟨-, -, hcc, -⟩
        exact absurd hcc (by decide)
    rw [hlitn]
    rw [show tryD2 ([a, b, '.', d, e] ++ rest) = some [a, b, '.', d, e] from by
      simp [tryD2, ha, hb, hd, he, hbd]]
  · subst hm1
    subst hl
    unfold tryMatch
    have hlitn : tryLit ([a, '.', d, e] ++ rest) = none := by
      cases rest with
      | nil => rfl
      | cons r0 rest' =>
        cases rest' with
        | nil => rfl
        | cons r1 rest'' =>
          simp only [List.cons_append, List.nil_append, tryLit]
          rw [if_neg]
          rintro ⟨-, hcc, -⟩
          exact absurd hcc (by decide)
    have hd2n : tryD2 ([a, '.', d, e] ++ rest) = none := by
      cases rest with
      | nil => rfl
      | cons r0 rest' =>
        simp only [List.cons_append, List.nil_append, tryD2]
        rw [if_neg]
        rintro ⟨-, hcc, -⟩
        exact absurd hcc (by decide)
    rw [hlitn, hd2n]
    simp [tryD1, ha, hd, he, hbd]

theorem matchPre_cons_word {c : Char} {rest m : List Char} (h : MatchPre (c :: rest) m) :
    isWordChar c = true := by
  obtain ⟨hshape, rest2, hl, -⟩ := h
  rcases hshape with h1 | ⟨a, b, d, e, ha, -, -, -, h2⟩ | ⟨a, d, e, ha, -, -, h2⟩
  · subst h1
    injection hl with hc htail
    rw [hc]
    decide
  · subst h2
    injection hl with hc htail
    rw [hc]
    exact isWordChar_of_digit ha
  · subst h2
    injection hl with hc htail
    rw [hc]
    exact isWordChar_of_digit ha

theorem prevIsWord_succ (pw : Bool) (c : Char) (rest : List Char) (j : ℕ) :
    prevIsWord pw (c :: rest) (j + 1) = prevIsWord (isWordChar c) rest j := by
  cases j <;> rfl

theorem boundedShapeAt_succ (pw : Bool) (c : Char) (rest : List Char) (j : ℕ)
    (m : List Char) :
    BoundedShapeAt pw (c :: rest) (j + 1) m ↔ BoundedShapeAt (isWordChar c) rest j m := by
  unfold BoundedShapeAt
  rw [prevIsWord_succ, show (c :: rest).drop (j + 1) = rest.drop j from rfl]

theorem boundedShapeAt_zero (pw : Bool) (l m : List Char) :
    BoundedShapeAt pw l 0 m ↔ (pw = false ∧ MatchPre l m) :=
  Iff.rfl

/-- The per-position attempt of `searchScore` succeeds with `m` exactly
when a boundary-delimited shape occurrence of `m` starts here. -/
theorem head_attempt (pw : Bool) (c : Char) (rest m : List Char) :
    (if pw ≠ isWordChar c then tryMatch (c :: rest) else none) = some m
      ↔ BoundedShapeAt pw (c :: rest) 0 m := by
  rw [boundedShapeAt_zero]
  constructor
  · intro h
    split_ifs at h with hb
    · have hmp := tryMatch_matchPre h
      have hw := matchPre_cons_word hmp
      refine ⟨?_, hmp⟩
      cases hpw : pw with
      | false => rfl
      | true =>
        rw [hpw, hw] at hb
        exact absurd rfl hb
  · rintro ⟨hpw, hmp⟩
    have hw := matchPre_cons_word hmp
    rw [if_pos (by rw [hpw, hw]; simp)]
    exact matchPre_tryMatch hmp

theorem searchScore_none_sound :
    ∀ (l : List Char) (pw : Bool), searchScore pw l = none →
      ∀ i m, ¬ BoundedShapeAt pw l i m := by
  intro l
  induction l with
  | nil =>
    intro pw _ i m hB
    obtain ⟨-, hshape, rest2, hl, -⟩ := hB
    rw [List.drop_nil] at hl
    rcases hshape with h1 | ⟨a, b, d, e, -, -, -, -, h2⟩ | ⟨a, d, e, -, -, -, h2⟩
    · subst h1; simp at hl
    · subst h2; simp at hl
    · subst h2; simp at hl
  | cons c rest ih =>
    intro pw h i m hB
    unfold searchScore at h
    rcases hh : (if pw ≠ isWordChar c then tryMatch (c :: rest) else none) with _ | m0
    · rw [hh] at h
      cases i with
      | zero =>
        have := (head_attempt pw c rest m).mpr hB
        rw [hh] at this
        exact nomatch this
      | succ j =>
        exact ih (isWordChar c) h j m ((boundedShapeAt_succ pw c rest j m).mp hB)
    · rw [hh] at h
      exact nomatch h

theorem searchScore_some_leftmost :
    ∀ (l : List Char) (pw : Bool) (m : List Char), searchScore pw l = some m →
      ∃ i, BoundedShapeAt pw l i m
        ∧ ∀ j m', BoundedShapeAt pw l j m' → i ≤ j := by
  intro l
  induction l with
  | nil => intro pw m h; exact absurd h (by simp [searchScore])
  | cons c rest ih =>
    intro pw m h
    unfold searchScore at h
    rcases hh : (if pw ≠ isWordChar c then tryMatch (c :: rest) else none) with _ | m0
    · rw [hh] at h
      obtain ⟨i, hB, hmin⟩ := ih (isWordChar c) m h
      refine ⟨i + 1, (boundedShapeAt_succ pw c rest i m).mpr hB, ?_⟩
      intro j m' hB'
      cases j with
      | zero =>
        have := (head_attempt pw c rest m').mpr hB'
        rw [hh] at this
        exact nomatch this
      | succ j' =>
        exact Nat.succ_le_succ (hmin j' m' ((boundedShapeAt_succ pw c rest j' m').mp hB'))
    · rw [hh] at h
      injection h with hm
      subst hm
      exact ⟨0, (head_attempt pw c rest _).mp hh, fun j _ _ => Nat.zero_le j⟩

/-- Counterexample for C3 as frozen: in the text `"x85.00 9.50"` the
first substring of the claim's lexical shape is `"85.00"` (value 85), but
the regex's word boundary rejects it (it is preceded by `x`), so the code
parses `"9.50"` and returns 9.5 ≠ 85. -/
theorem query_first_shape_cex :
    claimFirstShape (("x85.00 9.50").data) = some (("85.00").data)
    ∧ query_ollama (some "x85.00 9.50") = 19 / 2
    ∧ parseTwoDecimal (("85.00").data) = 85
    ∧ (19 / 2 : ℚ) ≠ 85 := by
  refine ⟨rfl, ?_, ?_, by norm_num⟩
  · rw [show query_ollama (some "x85.00 9.50") = parseTwoDecimal ['9', '.', '5', '0'] from rfl]
    rw [parseTwoDecimal_eq _ 9 50 2 (by decide) (by decide) (by decide)]
    norm_num
  · rw [parseTwoDecimal_eq _ 85 0 2 (by decide) (by decide) (by decide)]
    norm_num

/-- C3 (amended): `query_ollama` parses the FIRST substring of the
(stripped) response text that has the lexical shape AND sits at word
boundaries (not immediately preceded or followed by a word character);
when no such boundary-delimited occurrence exists — in particular for any
text with no substring of the shape at all, such as "85" or "85.5" — it
returns the sentinel, which classifies as no-flag. -/
theorem query_ollama_parse_amended (t : String) :
    (query_ollama (some t) = -1 →
      ∀ config, get_classification_for_score (query_ollama (some t)) config = "none")
    ∧ ((∀ i m, ¬ BoundedShapeAt false (pyStripL t.data) i m) → query_ollama (some t) = -1)
    ∧ (query_ollama (some t) ≠ -1 →
        ∃ i m, BoundedShapeAt false (pyStripL t.data) i m
          ∧ query_ollama (some t) = parseTwoDecimal m
          ∧ ∀ j m', BoundedShapeAt false (pyStripL t.data) j m' → i ≤ j) := by
  refine ⟨?_, ?_, ?_⟩
  · intro h config
    rw [h]
    unfold get_classification_for_score
    norm_num
  · intro hno
    rcases hs : searchScore false (pyStripL t.data) with _ | m
    · simp only [query_ollama]
      rw [hs]
    · obtain ⟨i, hB, -⟩ := searchScore_some_leftmost _ _ _ hs
      exact absurd hB (hno i m)
  · rcases hs : searchScore false (pyStripL t.data) with _ | m
    · intro hne
      exfalso
      apply hne
      simp only [query_ollama]
      rw [hs]
    · intro _
      obtain ⟨i, hB, hmin⟩ := searchScore_some_leftmost _ _ _ hs
      exact ⟨i, m, hB, by simp only [query_ollama]; rw [hs], hmin⟩

/-- Witness for C3's amended theorem at the response text "42.00". -/
theorem query_ollama_parse_amended_witness :
    ∃ i m, BoundedShapeAt false (pyStripL (("42.00").data)) i m
      ∧ query_ollama (some "42.00") = parseTwoDecimal m
      ∧ ∀ j m', BoundedShapeAt false (pyStripL (("42.00").data)) j m' → i ≤ j := by
  refine (query_ollama_parse_amended "42.00").2.2 ?_
  rw [show query_ollama (some "42.00") = parseTwoDecimal ['4', '2', '.', '0', '0'] from rfl]
  rw [parseTwoDecimal_eq _ 42 0 2 (by decide) (by decide) (by decide)]
  norm_num

/-! ## C10: the heap merge never mutates a pre-existing object -/

theorem hLookup_hSetAt_ne (objs : List (ℕ × List (String × HVal))) (a a' : ℕ)
    (d : List (String × HVal)) (h : a' ≠ a) :
    hLookup (hSetAt objs a d) a' = hLookup objs a' := by
  induction objs with
  | nil => rfl
  | cons p rest ih =>
    obtain ⟨a0, d0⟩ := p
    by_cases h0 : a0 = a
    · subst h0
      simp [hSetAt, hLookup, Ne.symm h]
    · simp [hSetAt, h0, hLookup, ih]

theorem hSetAt_mem (objs : List (ℕ × List (String × HVal))) (r : ℕ)
    (d : List (String × HVal)) :
    ∀ p ∈ hSetAt objs r d, p.1 = r ∨ p ∈ objs := by
  induction objs with
  | nil => simp [hSetAt]
  | cons q rest ih =>
    obtain ⟨a0, d0⟩ := q
    by_cases h0 : a0 = r
    · subst h0
      intro p hp
      rw [show hSetAt ((a0, d0) :: rest) a0 d = (a0, d) :: rest by simp [hSetAt]] at hp
      rcases List.mem_cons.mp hp with h1 | h2
      · exact Or.inl (by rw [h1])
      · exact Or.inr (List.mem_cons_of_mem _ h2)
    · intro p hp
      rw [show hSetAt ((a0, d0) :: rest) r d = (a0, d0) :: hSetAt rest r d by
        simp [hSetAt, h0]] at hp
      rcases List.mem_cons.mp hp with h1 | h2
      · exact Or.inr (by rw [h1]; exact List.mem_cons_self _ _)
      · rcases ih p h2 with h3 | h4
        · exact Or.inl h3
        · exact Or.inr (List.mem_cons_of_mem _ h4)

theorem Heap.WF_setObj (h : Heap) (r : ℕ) (d : List (String × HVal))
    (hwf : Heap.WF h) (hr : r < h.next) : Heap.WF (h.setObj r d) := by
  intro p hp
  rcases hSetAt_mem h.objs r d p hp with h1 | h2
  · show p.1 < h.next
    rw [h1]
    exact hr
  · exact hwf p h2

theorem hMergeLoop_frame (rec : Heap → ℕ → ℕ → Heap × ℕ)
    (hrec : ∀ h da ua, Heap.WF h →
      Heap.WF (rec h da ua).1 ∧ h.next ≤ (rec h da ua).1.next
        ∧ ∀ a, a < h.next → (rec h da ua).1.get a = h.get a) :
    ∀ (items : List (String × HVal)) (h : Heap) (r : ℕ), Heap.WF h → r < h.next →
      Heap.WF (hMergeLoop rec h r items)
      ∧ h.next ≤ (hMergeLoop rec h r items).next
      ∧ ∀ a, a < h.next → a ≠ r → (hMergeLoop rec h r items).get a = h.get a := by
  intro items
  induction items with
  | nil => intro h r hwf _; exact ⟨hwf, le_refl _, fun _ _ _ => rfl⟩
  | cons p rest ih =>
    intro h r hwf hr
    obtain ⟨k, v⟩ := p
    have hstep : ∀ d : List (String × HVal),
        Heap.WF (hMergeLoop rec (h.setObj r d) r rest)
        ∧ h.next ≤ (hMergeLoop rec (h.setObj r d) r rest).next
        ∧ ∀ a, a < h.next → a ≠ r →
            (hMergeLoop rec (h.setObj r d) r rest).get a = h.get a := by
      intro d
      obtain ⟨hwF, hnF, hfF⟩ := ih (h.setObj r d) r (Heap.WF_setObj h r d hwf hr) hr
      refine ⟨hwF, hnF, fun a ha hne => ?_⟩
      rw [hfF a ha hne]
      exact hLookup_hSetAt_ne _ _ _ _ hne
    simp only [hMergeLoop]
    rcases hdg : hDictGet ((h.get r).getD []) k with _ | hv
    · exact hstep _
    · cases hv with
      | href sa =>
        cases v with
        | href va =>
          by_cases hcirc : k ≠ "__circular__"
          · simp only [if_pos hcirc]
            obtain ⟨hw', hn', hf'⟩ := hrec h sa va hwf
            have hr1 : r < (rec h sa va).1.next := lt_of_lt_of_le hr hn'
            obtain ⟨hwF, hnF, hfF⟩ := ih
              ((rec h sa va).1.setObj r
                (hDictSet (((rec h sa va).1.get r).getD []) k (HVal.href (rec h sa va).2))) r
              (Heap.WF_setObj _ r _ hw' hr1) hr1
            refine ⟨hwF, le_trans hn' hnF, fun a ha hne => ?_⟩
            rw [hfF a (lt_of_lt_of_le ha hn') hne]
            rw [show ((rec h sa va).1.setObj r
                (hDictSet (((rec h sa va).1.get r).getD []) k (HVal.href (rec h sa va).2))).get a
                = (rec h sa va).1.get a from hLookup_hSetAt_ne _ _ _ _ hne]
            exact hf' a ha
          · simp only [if_neg hcirc]
            exact hstep _
        | hnum q => exact hstep _
        | hstr s => exact hstep _
        | hbool b => exact hstep _
        | hnull => exact hstep _
      | hnum q => exact hstep _
      | hstr s => exact hstep _
      | hbool b => exact hstep _
      | hnull => exact hstep _

theorem alloc_facts (h : Heap) (d : List (String × HVal)) (hwf : Heap.WF h) :
    Heap.WF (h.alloc d).1 ∧ (h.alloc d).1.next = h.next + 1 ∧ (h.alloc d).2 = h.next
      ∧ ∀ a, a < h.next → (h.alloc d).1.get a = h.get a := by
  refine ⟨?_, rfl, rfl, fun a ha => ?_⟩
  · intro p hp
    rcases List.mem_cons.mp hp with h1 | h2
    · show p.1 < h.next + 1
      rw [h1]
      exact Nat.lt_succ_self _
    · exact Nat.lt_succ_of_lt (hwf p h2)
  · show hLookup ((h.next, d) :: h.objs) a = hLookup h.objs a
    rw [show hLookup ((h.next, d) :: h.objs) a
        = if h.next = a then some d else hLookup h.objs a from rfl]
    rw [if_neg (Nat.ne_of_gt ha)]

theorem hMergeFuel_frame :
    ∀ (fuel : ℕ) (h : Heap) (da ua : ℕ), Heap.WF h →
      Heap.WF (hMergeFuel fuel h da ua).1
      ∧ h.next ≤ (hMergeFuel fuel h da ua).1.next
      ∧ ∀ a, a < h.next → (hMergeFuel fuel h da ua).1.get a = h.get a := by
  intro fuel
  induction fuel with
  | zero =>
    intro h da ua hwf
    obtain ⟨hw, hn, -, hf⟩ := alloc_facts h (hDictUpdate ((h.get da).getD []) ((h.get ua).getD [])) hwf
    exact ⟨hw, by rw [show (hMergeFuel 0 h da ua).1.next = h.next + 1 from hn]; omega, hf⟩
  | succ fuel ih =>
    intro h da ua hwf
    simp only [hMergeFuel]
    obtain ⟨hw1, hn1, hr1, hf1⟩ := alloc_facts h ((h.get da).getD []) hwf
    obtain ⟨hwF, hnF, hfF⟩ := hMergeLoop_frame (hMergeFuel fuel) ih
      (((h.alloc ((h.get da).getD [])).1.get ua).getD [])
      (h.alloc ((h.get da).getD [])).1 (h.alloc ((h.get da).getD [])).2
      hw1 (by rw [hn1, hr1]; exact Nat.lt_succ_self _)
    refine ⟨hwF, ?_, fun a ha => ?_⟩
    · calc h.next ≤ (h.alloc ((h.get da).getD [])).1.next := by rw [hn1]; omega
        _ ≤ _ := hnF
    · rw [hfF a (by rw [hn1]; omega) (by rw [hr1]; exact Nat.ne_of_lt ha)]
      exact hf1 a ha

/-- C10: `deep_merge_config` over the explicit heap never mutates a
pre-existing dict object — in particular neither of its two argument
dicts: every address allocated before the call still holds exactly its
old contents afterwards, the result being built from fresh copies. -/
theorem deep_merge_heap_frame (h : Heap) (da ua depth : ℕ) (hwf : Heap.WF h) :
    ∀ a, a < h.next → (deep_merge_config_heap h da ua depth).1.get a = h.get a :=
  fun a ha => (hMergeFuel_frame (11 - depth) h da ua hwf).2.2 a ha

/-- Witness for C10: merging the two one-entry dicts at addresses 0 and 1
leaves both stored objects unchanged. -/
theorem deep_merge_heap_frame_witness :
    (deep_merge_config_heap ⟨[(0, [("a", HVal.hnum 1)]), (1, [("a", HVal.hnum 2)])], 2⟩ 0 1 0).1.get 0
      = some [("a", HVal.hnum 1)]
    ∧ (deep_merge_config_heap ⟨[(0, [("a", HVal.hnum 1)]), (1, [("a", HVal.hnum 2)])], 2⟩ 0 1 0).1.get 1
      = some [("a", HVal.hnum 2)] := by
  constructor
  · rw [deep_merge_heap_frame ⟨[(0, [("a", HVal.hnum 1)]), (1, [("a", HVal.hnum 2)])], 2⟩ 0 1 0
      (by intro p hp; fin_cases hp <;> norm_num) 0 (by norm_num)]
    rfl
  · rw [deep_merge_heap_frame ⟨[(0, [("a", HVal.hnum 1)]), (1, [("a", HVal.hnum 2)])], 2⟩ 0 1 0
      (by intro p hp; fin_cases hp <;> norm_num) 1 (by norm_num)]
    rfl

/-! ## C2 (code bug): an unwritable log raises out of the orchestrator -/

/-- C2 (code bug): `log_message` has no exception handler and
`classify_message_file` calls it unguarded, so with the log unwritable the
run raises instead of returning a classification; the identical world with
a writable log returns "red".  This contradicts the spec's "log-write
errors are silently swallowed, the pipeline never raises". -/
theorem classify_log_failure_raises :
    classify_message_file
        ⟨false, ["/m"], [("/m", ⟨some "boss@x", some "Hi", MimeMsg.leaf "text/plain" (some "hello")⟩)],
          some "90.00"⟩ {} "/m"
      = (Except.error (), false)
    ∧ classify_message_file
        ⟨true, ["/m"], [("/m", ⟨some "boss@x", some "Hi", MimeMsg.leaf "text/plain" (some "hello")⟩)],
          some "90.00"⟩ {} "/m"
      = (Except.ok "red", true) := by
  constructor
  · rfl
  · rw [classify_success _ _ _ rfl (by decide) (by decide)]
    dsimp only
    rw [show query_ollama (some "90.00") = parseTwoDecimal ['9', '0', '.', '0', '0'] from rfl]
    rw [parseTwoDecimal_eq _ 90 0 2 (by decide) (by decide) (by decide)]
    norm_num [get_classification_for_score]

/-! ## C4 (code bug): a non-multipart text/html body keeps its tags -/

/-- C4 (code bug): a non-multipart `text/html` message takes its raw
payload as body (the non-multipart branch reads the payload whatever the
content type, and the final tag-strip check fires only on blank bodies),
so the tags survive — against the claimed selection priority, under which
this message has no `text/plain` part and would get the tag-stripped HTML
(second conjunct); a multipart message with the same single HTML part does
get the stripped text (third conjunct). -/
theorem extract_nonmultipart_html_keeps_tags :
    extract_snippet 2048 (some ⟨none, none, MimeMsg.leaf "text/html" (some "<b>Hi</b> there")⟩)
      = ("(unknown sender)", "(no subject)\n<b>Hi</b> there")
    ∧ String.mk (stripTags ("<b>Hi</b> there").data) = "Hi there"
    ∧ extract_snippet 2048 (some ⟨none, none,
        MimeMsg.multi "multipart/alternative"
          (MimeList.mcons (MimeMsg.leaf "text/html" (some "<b>Hi</b> there")) MimeList.mnil)⟩)
      = ("(unknown sender)", "(no subject)\nHi there") :=
  ⟨rfl, rfl, rfl⟩

end EmailFlagger
